import Mathlib

/-!
Verification of the coost coroutine runtime (src/co/co.cc, src/co/sched.cc)
against its natural-language specification.

The C++ code is shallowly embedded: each primitive's shared state becomes a
Lean structure, the code executed under the primitive's internal mutex becomes
a pure transition function, and racing threads become interleavings of those
atomic transitions.  Machine integers are modelled as `Nat`/`Int` with
explicit `% 2^32` where uint32 overflow matters.
-/

namespace Coost

/-! ## Waitx state protocol (co.cc / sched.h)

A `waitx_t` carries an atomic state with values `st_wait`, `st_ready`,
`st_timeout`.  The parties that touch the state of an existing record are:

* `event_impl::signal` (co.cc:285, 312): CAS `st_wait → st_ready`;
* `TimerManager::check_timeout` (sched.cc:291): CAS `st_wait → st_timeout`;
* `pipe_impl::read`/`write` producer/consumer side (co.cc:504, 623):
  CAS `st_wait → st_ready`;
* `pipe_impl::read`/`write` thread-waiter timeout (co.cc:576, 687):
  CAS `st_wait → st_timeout`;
* `pipe_impl::close` (co.cc:721): CAS `st_wait → st_ready`;
* `event_impl::wait` (co.cc:228): reusing a timed-out record at the head of
  the wait list, a plain (non-CAS) store `x->state = st_wait`.
-/

inductive WxState where
  | wait
  | ready
  | timeout
deriving DecidableEq, Repr

/-- `compare_exchange_strong` with expected value `st_wait`:
returns the new state and whether the exchange succeeded. -/
def casFromWait (desired cur : WxState) : WxState × Bool :=
  if cur = WxState.wait then (desired, true) else (cur, false)

/-- The operations the code applies to the state of an existing waitx record. -/
inductive WxOp where
  | casReady    -- signaler / producer / consumer / close: CAS wait → ready
  | casTimeout  -- timer expirer / thread-side timeout: CAS wait → timeout
  | storeWait   -- event_impl::wait (co.cc:228): plain store st_wait on a reused record
deriving DecidableEq, Repr

def wxStep (s : WxState) : WxOp → WxState
  | WxOp.casReady => (casFromWait WxState.ready s).1
  | WxOp.casTimeout => (casFromWait WxState.timeout s).1
  | WxOp.storeWait => WxState.wait

def wxRun (s : WxState) (ops : List WxOp) : WxState := ops.foldl wxStep s

/-- Whether an operation is a CAS that succeeds in state `s`. -/
def wxWins (s : WxState) : WxOp → Bool
  | WxOp.casReady => decide (s = WxState.wait)
  | WxOp.casTimeout => decide (s = WxState.wait)
  | WxOp.storeWait => false

/-- Number of successful CAS transitions along a run. -/
def wxWinCount : WxState → List WxOp → Nat
  | _, [] => 0
  | s, op :: ops => (if wxWins s op then 1 else 0) + wxWinCount (wxStep s op) ops

lemma wxStep_frozen {s : WxState} (hs : s ≠ WxState.wait) {op : WxOp}
    (hop : op ≠ WxOp.storeWait) : wxStep s op = s := by
  cases op <;> simp [wxStep, casFromWait, hs] at hop ⊢

lemma wxRun_frozen {s : WxState} (hs : s ≠ WxState.wait) {ops : List WxOp}
    (hops : WxOp.storeWait ∉ ops) : wxRun s ops = s := by
  induction ops with
  | nil => rfl
  | cons op ops ih =>
      have hop : op ≠ WxOp.storeWait := by
        intro h; exact hops (by simp [h])
      have : wxStep s op = s := wxStep_frozen hs hop
      simp only [wxRun, List.foldl_cons, this]
      exact ih (fun h => hops (List.mem_cons_of_mem _ h))

lemma wxWinCount_frozen {s : WxState} (hs : s ≠ WxState.wait) {ops : List WxOp}
    (hops : WxOp.storeWait ∉ ops) : wxWinCount s ops = 0 := by
  induction ops with
  | nil => rfl
  | cons op ops ih =>
      have hop : op ≠ WxOp.storeWait := by
        intro h; exact hops (by simp [h])
      have hwin : wxWins s op = false := by
        cases op <;> simp [wxWins, hs] at hop ⊢
      simp only [wxWinCount, hwin, Bool.false_eq_true, if_false, wxStep_frozen hs hop,
        Nat.zero_add]
      exact ih (fun h => hops (List.mem_cons_of_mem _ h))

/-! ## Event (co.cc, `event_impl`)

State protected by `_m` that the `wait` fast path touches: the `_signaled`
flag and the `_manual_reset` constant. -/

structure EventSt where
  signaled : Bool
  manual_reset : Bool
deriving DecidableEq, Repr

/-- Outcome of the fast path of `event_impl::wait` (the part before a waitx
is enqueued / the condition variable is waited on). -/
inductive WaitFast where
  | ret (b : Bool)
  | block
deriving DecidableEq, Repr

/-- The prefix of `event_impl::wait(ms)` executed under `_m` (co.cc:215-219
for the coroutine path, co.cc:242-246 for the thread path; both are
identical):
`if (_signaled) { if (!_manual_reset) _signaled = false; return true; }
 if (ms == 0) return false;`  otherwise the caller blocks. -/
def event_wait_fast (e : EventSt) (ms : Nat) : WaitFast × EventSt :=
  if e.signaled then
    (WaitFast.ret true, if !e.manual_reset then { e with signaled := false } else e)
  else if ms = 0 then (WaitFast.ret false, e)
  else (WaitFast.block, e)

/-! ## WaitGroup (co.cc, `wait_group`)

`wait_group::done()` (co.cc:958-963):
`const uint32_t x = --e->wg(); CHECK(x != (uint32)-1); if (x == 0) e->signal();`
`CHECK` is a fatal log: it terminates the program (include/co/log.h:164). -/

inductive DoneRes where
  | abort
  | ok (wg : Nat) (signal : Bool)
deriving DecidableEq, Repr

/-- `wait_group::done()` on a counter value `wg < 2^32`; the decrement is
uint32 arithmetic. -/
def wait_group_done (wg : Nat) : DoneRes :=
  let x := (wg + (2 ^ 32 - 1)) % 2 ^ 32
  if x = 2 ^ 32 - 1 then DoneRes.abort else DoneRes.ok x (decide (x = 0))

/-! ## Coroutine-API dispatch (sched.cc:434-484)

`xx::current_sched()` is a thread-local: `some s` on a scheduler thread, and
`none` elsewhere.  `CHECK(s)` on a null scheduler is a fatal log that
terminates the program. -/

structure SchedHandle where
  sid : Nat
  timeoutFlag : Bool
deriving DecidableEq, Repr

inductive Fatal where
  | checkFailed
deriving DecidableEq, Repr

inductive SleepAct where
  | schedSleep (sid ms : Nat)   -- s->sleep(ms): coroutine timer-sleep
  | threadSleep (ms : Nat)      -- sleep::ms(ms): plain blocking thread sleep
deriving DecidableEq, Repr

/-- `co::sleep(ms)` (sched.cc:469-472): `s ? s->sleep(ms) : sleep::ms(ms)`. -/
def co_sleep (s : Option SchedHandle) (ms : Nat) : SleepAct :=
  match s with
  | some s => SleepAct.schedSleep s.sid ms
  | none => SleepAct.threadSleep ms

/-- `co::yield()` (sched.cc:458-462): `CHECK(s); s->yield();`. -/
def co_yield (s : Option SchedHandle) : Except Fatal Nat :=
  match s with
  | some s => Except.ok s.sid
  | none => Except.error Fatal.checkFailed

/-- `co::add_timer(ms)` (sched.cc:434-438): `CHECK(s); s->add_timer(ms);`. -/
def co_add_timer (s : Option SchedHandle) (ms : Nat) : Except Fatal (Nat × Nat) :=
  match s with
  | some s => Except.ok (s.sid, ms)
  | none => Except.error Fatal.checkFailed

/-- `co::on_stack(p)` (sched.cc:480-484): `CHECK(s); return s->on_stack(p);`
(the result of `s->on_stack` is abstracted as an opaque success). -/
def co_on_stack (s : Option SchedHandle) (p : Nat) : Except Fatal (Nat × Nat) :=
  match s with
  | some s => Except.ok (s.sid, p)
  | none => Except.error Fatal.checkFailed

/-- `co::timeout()` (sched.cc:474-478): `CHECK(s); return s && s->timeout();`. -/
def co_timeout (s : Option SchedHandle) : Except Fatal Bool :=
  match s with
  | some s => Except.ok s.timeoutFlag
  | none => Except.error Fatal.checkFailed

/-! ## TimerManager (sched.cc:275-304, `TimerManager::check_timeout`)

`_timer` is a `multimap<int64, Coroutine*>`: modelled as a list of
(deadline, coroutine) pairs sorted by deadline, equal deadlines kept in
insertion order.  For each expired entry the code clears the coroutine's
timer iterator and wakes the coroutine: unconditionally when it has no
waitx, otherwise only when the CAS `st_wait → st_timeout` on its waitx
succeeds.  The `_it` hint-iterator bookkeeping does not affect the result
and is omitted. -/

structure TimerCo where
  cid : Nat
  waitx : Option WxState   -- none: co->waitx == NULL; some st: its current state
deriving DecidableEq, Repr

/-- Whether `check_timeout` collects the coroutine of an expired entry
(sched.cc:285-295). -/
def timer_wakes (c : TimerCo) : Bool :=
  match c.waitx with
  | none => true
  | some st => (casFromWait WxState.timeout st).2

/-- The walk of sched.cc:280-296: split off the leading entries with
deadline ≤ now, collecting the woken coroutines. -/
def timer_expire (now : Int) : List (Int × TimerCo) → List TimerCo × List (Int × TimerCo)
  | [] => ([], [])
  | (k, c) :: ts =>
      if k > now then ([], (k, c) :: ts)
      else
        let r := timer_expire now ts
        (if timer_wakes c then c :: r.1 else r.1, r.2)

/-- The poller wait time computed at sched.cc:303: `(uint32)-1` on an empty
timer list, else the uint32 cast of `begin->first - now_ms`. -/
def next_wait (now : Int) : List (Int × TimerCo) → Nat
  | [] => 2 ^ 32 - 1
  | (k, _) :: _ => (k - now).toNat % 2 ^ 32

/-- `TimerManager::check_timeout(res)`: returns the collected coroutines, the
remaining timer list, and the wait time handed to the poller
((uint32)-1 = 2^32-1 when the timer list is empty, else the uint32 cast of
`begin->first - now_ms`). -/
def check_timeout (now : Int) (timer : List (Int × TimerCo)) :
    List TimerCo × List (Int × TimerCo) × Nat :=
  match timer with
  | [] => ([], [], 2 ^ 32 - 1)
  | _ =>
      let r := timer_expire now timer
      (r.1, r.2, next_wait now r.2)

/-! ## SchedManager placement policy (sched.cc:331-363)

`_next` for `sched_num > 1` (the power-of-two and general variants differ
only in how the random first choice `i` is computed; `i` is a parameter
here).  `g_nco` is the global task counter, `si.cputime` this thread's
recorded samples, `cputime j` scheduler j's current published CPU time. -/

structure NextState where
  nco : Nat
  sample : Nat → Int
deriving Inhabited

/-- `SchedManager::_next` (sched.cc:333-359): result is the index of the
chosen scheduler and the updated thread-local state.  `i` is the random
first choice (`co::rand(seed) & (n-1)` resp. `% n`), `k = i != n-1 ? i+1 : 0`
the alternative. -/
def sched_next (n : Nat) (cputime : Nat → Int) (st : NextState) (i : Nat) :
    Nat × NextState :=
  if st.nco < n then (st.nco, { st with nco := st.nco + 1 })
  else
    let k := if i ≠ n - 1 then i + 1 else 0
    let ti := cputime i
    let tk := cputime k
    if st.sample k = tk then (i, st)
    else if ti ≤ tk then (i, { st with sample := fun j => if j = k then tk else st.sample j })
    else (k, { st with sample := fun j => if j = k then tk else st.sample j })

/-- Modelled from the spec's words, for comparison with `sched_next`
("if the first-choice scheduler's observed CPU time is not worse than the
alternative scheduler's last recorded sample, the first choice is used,
otherwise the alternative is used and its sample is updated"). -/
def sched_next_per_claim (n : Nat) (cputime : Nat → Int) (st : NextState) (i : Nat) :
    Nat × NextState :=
  if st.nco < n then (st.nco, { st with nco := st.nco + 1 })
  else
    let k := if i ≠ n - 1 then i + 1 else 0
    if cputime i ≤ st.sample k then (i, st)
    else (k, { st with sample := fun j => if j = k then cputime k else st.sample j })

/-! ## Channel / pipe (co.cc, `pipe_impl`)

The ring buffer holds `N = _buf_size / _blk_size` fixed-size blocks; the
model tracks positions in block units (`_rx += _blk_size; if (_rx ==
_buf_size) _rx = 0;` becomes `rx + 1`, wrapping at `N`), and a block's
payload as a value of a type `α` (the copy/move callbacks `_c`/`_d` just
transport that value).  All of `read`/`write`/`close` below is the code
executed while `_m` is held, so one call is one atomic transition. -/

structure PipeWaitx (α : Type) where
  isCo : Bool       -- w->co != NULL
  state : WxState   -- w->state
  done : Nat        -- w->x.done: 0 pending, 1 ok, 2 channel closed
  v : Nat           -- w->x.v: bit0 = mv, bit1 = destruct
  val : α           -- the block carried in / destined for w->buf
deriving DecidableEq, Repr

structure PipeSt (α : Type) where
  N : Nat           -- _buf_size / _blk_size
  buf : Nat → α     -- ring storage, by block index
  rx : Nat          -- _rx in blocks
  wx : Nat          -- _wx in blocks
  full : Bool       -- _full
  closed : Nat      -- _closed: 0 open, 1 closing, 2 closed
  ms : Nat          -- _ms; 2^32-1 = (uint32)-1 means no timeout configured
  wq : List (PipeWaitx α)

/-- `pipe_impl::is_closed()` (co.cc:412): `_closed.load() != 0`. -/
def pipe_is_closed (c : PipeSt α) : Bool := decide (c.closed ≠ 0)

/-- `pipe_impl::_read_block` (co.cc:471-477), in block units. -/
def read_block (c : PipeSt α) : α × PipeSt α :=
  (c.buf c.rx, { c with rx := if c.rx + 1 = c.N then 0 else c.rx + 1 })

/-- `pipe_impl::_write_block` (co.cc:479-483), in block units. -/
def write_block (c : PipeSt α) (p : α) : PipeSt α :=
  { c with buf := fun i => if i = c.wx then p else c.buf i,
           wx := if c.wx + 1 = c.N then 0 else c.wx + 1 }

/-- The waiter wake test `_ms == (uint32)-1 || w->state.compare_exchange_
strong(st_wait, st_ready)` (co.cc:503-505, 622-624). -/
def pipe_waiter_ready (c : PipeSt α) (w : PipeWaitx α) : Bool :=
  decide (c.ms = 2 ^ 32 - 1) || (casFromWait WxState.ready w.state).2

/-- `_write_block(p, v); if (_rx == _wx) _full = 1;` (co.cc:611-612, 644-645). -/
def write_append (c : PipeSt α) (p : α) : PipeSt α :=
  let c' := write_block c p
  if c'.rx = c'.wx then { c' with full := true } else c'

/-- Outcome of `pipe_impl::read`: `got` delivers a value with `g_done = true`
(possibly completing one blocked writer's handoff), `closedEmpty` returns
with `g_done = false`, `block` stands for enqueuing a reader waitx and
suspending. -/
inductive ReadRes (α : Type) where
  | got (val : α) (c : PipeSt α) (woken : Option (PipeWaitx α))
  | closedEmpty (c : PipeSt α)
  | block (c : PipeSt α)

/-- The full-buffer branch of `read` (co.cc:500-526): pop writer waiters
until one passes the wake test; its block is appended (`_full` stays 1) and
it is woken with `done = 1` (the CAS, when performed, has also set its state
to `st_ready`); timed-out waiters are freed.  If no writer survives,
`_full = 0`. -/
def read_drain (c : PipeSt α) : List (PipeWaitx α) → PipeSt α × Option (PipeWaitx α)
  | [] => ({ c with wq := [], full := false }, none)
  | w :: ws =>
      if pipe_waiter_ready c w then
        (write_block { c with wq := ws } w.val, some { w with done := 1 })
      else read_drain c ws

/-- `pipe_impl::read(p)` (co.cc:485-533), the transition under `_m`. -/
def pipe_read (c : PipeSt α) : ReadRes α :=
  if c.rx ≠ c.wx then
    let r := read_block c
    ReadRes.got r.1 r.2 none
  else if c.full then
    let r := read_block c
    let d := read_drain r.2 r.2.wq
    ReadRes.got r.1 d.1 d.2
  else if pipe_is_closed c then ReadRes.closedEmpty c
  else ReadRes.block c

/-- Outcome of `pipe_impl::write`: `ok` with `g_done = true` (possibly
handing the element straight to a blocked reader), `closed` with
`g_done = false`, `block` stands for enqueuing a writer waitx and
suspending. -/
inductive WriteRes (α : Type) where
  | ok (c : PipeSt α) (handoff : Option (PipeWaitx α))
  | closed (c : PipeSt α)
  | block (c : PipeSt α)

/-- The empty-buffer branch of `write` (co.cc:618-647): pop reader waiters
until one passes the wake test; the element goes directly into its buffer
(`w->x.done = 1`); timed-out waiters are freed; if no reader survives the
element is appended to the buffer. -/
def write_drain (c : PipeSt α) (p : α) : List (PipeWaitx α) → WriteRes α
  | [] => WriteRes.ok (write_append { c with wq := [] } p) none
  | w :: ws =>
      if pipe_waiter_ready c w then
        WriteRes.ok { c with wq := ws } (some { w with done := 1, val := p })
      else write_drain c p ws

/-- `pipe_impl::write(p, v)` (co.cc:601-709), the transition under `_m`. -/
def pipe_write (c : PipeSt α) (p : α) : WriteRes α :=
  if pipe_is_closed c then WriteRes.closed c
  else if c.rx ≠ c.wx then WriteRes.ok (write_append c p) none
  else if !c.full then write_drain c p c.wq
  else WriteRes.block c

/-- The wake loop of `pipe_impl::close` (co.cc:718-732): every waiter whose
CAS `st_wait → st_ready` succeeds is woken with `done = 2`; the others are
freed. -/
def close_wake : List (PipeWaitx α) → List (PipeWaitx α)
  | [] => []
  | w :: ws =>
      let cas := casFromWait WxState.ready w.state
      if cas.2 then { w with state := cas.1, done := 2 } :: close_wake ws
      else close_wake ws

/-- Outcome of `pipe_impl::close`: `completed` (with the list of waiters
woken with the channel-closed payload), or `spin` — the caller loops
`co::sleep(1)` until `_closed == 2` (co.cc:736-737). -/
inductive CloseRes (α : Type) where
  | completed (c : PipeSt α) (woken : List (PipeWaitx α))
  | spin (c : PipeSt α)

/-- `pipe_impl::close()` (co.cc:711-739): CAS `_closed` 0 → 1; the winner,
under `_m`, wakes all pending readers when the buffer is empty and then
stores `_closed = 2`; a caller that observes 1 spins; a caller that
observes 2 returns at once. -/
def pipe_close (c : PipeSt α) : CloseRes α :=
  if c.closed = 0 then
    if c.rx = c.wx ∧ c.full = false then
      CloseRes.completed { c with wq := [], closed := 2 } (close_wake c.wq)
    else CloseRes.completed { c with closed := 2 } []
  else if c.closed = 1 then CloseRes.spin c
  else CloseRes.completed c []

/-- Abstraction: number of pending blocks in the ring. -/
def ringLen (c : PipeSt α) : Nat :=
  if c.full then c.N else (if c.rx ≤ c.wx then c.wx - c.rx else c.wx + c.N - c.rx)

/-- Abstraction: the pending blocks in FIFO order, oldest first. -/
def chanList (c : PipeSt α) : List α :=
  (List.range (ringLen c)).map (fun i => c.buf ((c.rx + i) % c.N))

/-- Well-formedness of the ring state maintained by `pipe_impl`. -/
def PipeWF (c : PipeSt α) : Prop :=
  0 < c.N ∧ c.rx < c.N ∧ c.wx < c.N ∧ (c.full = true → c.rx = c.wx)

/-! ## Mutex (co.cc:108-179, `mutex_impl`)

Shared state guarded by the internal OS mutex `_m`: the `_lock` byte
(0 free, 1 held, 2 released-to-thread-waiter) and the FIFO wait queue `_wq`
whose entries are `Coroutine*` — a real pointer for a coroutine waiter and
`nullptr` for a thread waiter (co.cc:151).  Each code region executed while
`_m` is held becomes one atomic transition; the handoff of the lock to a
popped coroutine (unlock → `add_ready_task` → the coroutine returns from
`yield()` owning the lock, co.cc:169-172) is collapsed into the pop.

Waiters are identified for specification purposes (`Wtr`), but the queue
stores what the code stores (`QEntry`): the thread identity is erased, and a
thread handoff (`_lock = 2; notify_one`) can be consumed by *any* thread
blocked in the `_cv.wait(g)` loop of co.cc:152-158. -/

inductive Wtr where
  | co (id : Nat)
  | thr (id : Nat)
deriving DecidableEq, Repr

/-- A `_wq` entry: `Coroutine*` or `nullptr`. -/
inductive QEntry where
  | co (id : Nat)
  | null
deriving DecidableEq, Repr

def entryOf : Wtr → QEntry
  | Wtr.co i => QEntry.co i
  | Wtr.thr _ => QEntry.null

inductive MuPC where
  | idle     -- not interacting with the mutex
  | queued   -- enqueued on _wq (coroutine: suspended; thread: blocked on _cv)
  | holding  -- owns the mutex
deriving DecidableEq, Repr

structure MuSt where
  lock : Nat          -- _lock
  wq : List QEntry    -- _wq, front = next to pop
  pc : Wtr → MuPC     -- bookkeeping: each waiter's status

def updPC (f : Wtr → MuPC) (w : Wtr) (p : MuPC) : Wtr → MuPC :=
  fun u => if u = w then p else f u

/-- One atomic transition of `mutex_impl`, labelled by the acting waiter. -/
inductive MuStep where
  | lockFast (w : Wtr)     -- lock() with _lock == 0 (co.cc:135-137, 148-149)
  | lockEnq (w : Wtr)      -- lock() with _lock != 0: enqueue and wait (co.cc:138-142, 150-158)
  | tryLockOk (w : Wtr)    -- try_lock() success (co.cc:126-129)
  | unlockEmpty (w : Wtr)  -- unlock() with empty _wq (co.cc:165-167)
  | unlockPop (w : Wtr)    -- unlock() pops the head (co.cc:168-177)
  | claim (w : Wtr)        -- a blocked thread wakes and sees _lock == 2 (co.cc:153-157)
deriving DecidableEq, Repr

def muStep (s : MuSt) : MuStep → Option MuSt
  | MuStep.lockFast w =>
      if s.pc w = MuPC.idle ∧ s.lock = 0 then
        some { s with lock := 1, pc := updPC s.pc w MuPC.holding }
      else none
  | MuStep.tryLockOk w =>
      if s.pc w = MuPC.idle ∧ s.lock = 0 then
        some { s with lock := 1, pc := updPC s.pc w MuPC.holding }
      else none
  | MuStep.lockEnq w =>
      if s.pc w = MuPC.idle ∧ s.lock ≠ 0 then
        some { s with wq := s.wq ++ [entryOf w], pc := updPC s.pc w MuPC.queued }
      else none
  | MuStep.unlockEmpty w =>
      if s.pc w = MuPC.holding ∧ s.wq = [] then
        some { s with lock := 0, pc := updPC s.pc w MuPC.idle }
      else none
  | MuStep.unlockPop w =>
      match s.wq with
      | [] => none
      | e :: rest =>
          if s.pc w = MuPC.holding then
            match e with
            | QEntry.co j =>
                -- resume the coroutine; it returns from yield() holding the lock
                some { s with wq := rest,
                              pc := updPC (updPC s.pc w MuPC.idle) (Wtr.co j) MuPC.holding }
            | QEntry.null =>
                -- _lock = 2; notify_one: the handoff is pending for some thread
                some { s with wq := rest, lock := 2, pc := updPC s.pc w MuPC.idle }
          else none
  | MuStep.claim w =>
      match w with
      | Wtr.thr _ =>
          if s.pc w = MuPC.queued ∧ s.lock = 2 then
            some { s with lock := 1, pc := updPC s.pc w MuPC.holding }
          else none
      | Wtr.co _ => none

def mutexInit : MuSt := { lock := 0, wq := [], pc := fun _ => MuPC.idle }

def muRun : MuSt → List MuStep → Option MuSt
  | s, [] => some s
  | s, a :: l =>
      match muStep s a with
      | none => none
      | some s' => muRun s' l

/-- `w` newly acquires the mutex at some step of the execution of `l`
from `s` (its pc goes from non-holding to holding). -/
def acqIn (w : Wtr) : MuSt → List MuStep → Bool
  | _, [] => false
  | s, a :: l =>
      match muStep s a with
      | none => false
      | some s' =>
          (decide (s.pc w ≠ MuPC.holding) && decide (s'.pc w = MuPC.holding))
            || acqIn w s' l

/-- In the execution of `l` from `s`, waiter `wB` does not acquire the mutex
before `wA` does: the check stops as soon as either first acquires. -/
def fifoOk (wA wB : Wtr) : MuSt → List MuStep → Bool
  | _, [] => true
  | s, a :: l =>
      match muStep s a with
      | none => true
      | some s' =>
          if s.pc wB ≠ MuPC.holding ∧ s'.pc wB = MuPC.holding then false
          else if s.pc wA ≠ MuPC.holding ∧ s'.pc wA = MuPC.holding then true
          else fifoOk wA wB s' l

/-- The claim's FIFO property, stated over all waiters: whenever A enqueues
before B (with the runtime started from the initial mutex state), either A
acquires somewhere after its enqueue and before B's enqueue completes the
trace prefix, or — after B's enqueue — B never acquires before A. -/
def mutexFifoClaim : Prop :=
  ∀ (tr1 tr2 tr3 : List MuStep) (A B : Wtr) (s1 s2 : MuSt),
    (muRun mutexInit
      (tr1 ++ MuStep.lockEnq A :: (tr2 ++ MuStep.lockEnq B :: tr3))).isSome = true →
    muRun mutexInit (tr1 ++ [MuStep.lockEnq A]) = some s1 →
    muRun s1 (tr2 ++ [MuStep.lockEnq B]) = some s2 →
    acqIn A s1 tr2 = true ∨ fifoOk A B s2 tr3 = true

/-- The placement policy as C8 states it: after the round-robin fill, the
scheduler chosen by the code equals the one chosen by the spec's rule
("first choice unless its observed CPU time is worse than the alternative's
last recorded sample"). -/
def schedPlacementClaim : Prop :=
  ∀ (n : Nat) (cpu : Nat → Int) (st : NextState) (i : Nat),
    i < n → (sched_next n cpu st i).1 = (sched_next_per_claim n cpu st i).1

def cexChan : PipeSt Nat :=
  { N := 1, buf := fun _ => 0, rx := 0, wx := 0, full := false, closed := 2,
    ms := 2 ^ 32 - 1, wq := [] }

def cexWaitxW : PipeWaitx Nat :=
  { isCo := true, state := WxState.wait, done := 0, v := 0, val := 0 }

def cexWaitxT : PipeWaitx Nat :=
  { isCo := true, state := WxState.timeout, done := 0, v := 0, val := 0 }

def cexChanOpen : PipeSt Nat :=
  { N := 1, buf := fun _ => 0, rx := 0, wx := 0, full := false, closed := 0,
    ms := 2 ^ 32 - 1, wq := [cexWaitxW, cexWaitxT] }

def cexChanC9 : PipeSt Nat :=
  { N := 2, buf := fun i => if i = 0 then 10 else 20, rx := 0, wx := 1,
    full := false, closed := 2, ms := 2 ^ 32 - 1, wq := [] }

/-- Mutual-exclusion invariant: at most one waiter holds the mutex, and
while `_lock` is 0 (free) or 2 (handoff pending to a thread) nobody does. -/
def MuInv (s : MuSt) : Prop :=
  (∀ w w', s.pc w = MuPC.holding → s.pc w' = MuPC.holding → w = w') ∧
  ((s.lock = 0 ∨ s.lock = 2) → ∀ w, s.pc w ≠ MuPC.holding)

/-- Wait-queue invariant: every coroutine entry on `_wq` belongs to a
suspended (queued) coroutine, and no coroutine is enqueued twice. -/
def MuWF (s : MuSt) : Prop :=
  (∀ x, QEntry.co x ∈ s.wq → s.pc (Wtr.co x) = MuPC.queued) ∧
  (∀ x, s.wq.count (QEntry.co x) ≤ 1)

/-- Coroutine A's queue entry sits strictly in front of coroutine B's. -/
def Before (s : MuSt) (A B : Nat) : Prop :=
  ∃ l1 l2 l3, s.wq = l1 ++ QEntry.co A :: (l2 ++ QEntry.co B :: l3)

def cexPcT : Wtr → MuPC :=
  updPC (updPC (fun _ => MuPC.idle) (Wtr.co 0) MuPC.holding) (Wtr.thr 1) MuPC.queued

def cexS1thr : MuSt := { lock := 1, wq := [QEntry.null], pc := cexPcT }

def cexS2thr : MuSt :=
  { lock := 1, wq := [QEntry.null, QEntry.null],
    pc := updPC cexPcT (Wtr.thr 2) MuPC.queued }

def cexPcA : Wtr → MuPC :=
  updPC (updPC (fun _ => MuPC.idle) (Wtr.co 0) MuPC.holding) (Wtr.co 1) MuPC.queued

def cexS1co : MuSt := { lock := 1, wq := [QEntry.co 1], pc := cexPcA }

def cexS2co : MuSt :=
  { lock := 1, wq := [QEntry.co 1, QEntry.co 2],
    pc := updPC cexPcA (Wtr.co 2) MuPC.queued }

/-! ## Theorems -/

lemma wxRun_append (s : WxState) (l1 l2 : List WxOp) :
    wxRun s (l1 ++ l2) = wxRun (wxRun s l1) l2 := by
  simp [wxRun, List.foldl_append]

/-- C2, counterexample: the claim says a Waitx record's state, once it has
left `wait`, never changes again and that all transitions happen via CAS.
But `event_impl::wait` (co.cc:228) reuses a timed-out record at the head of
the event's wait list and resets its state to `st_wait` with a plain store:
after the timer expirer wins the CAS (`wait → timeout`), the reuse changes
the same record's state field again. -/
theorem waitx_monotone_counterexample :
    wxRun WxState.wait [WxOp.casTimeout] = WxState.timeout ∧
    wxRun WxState.wait [WxOp.casTimeout, WxOp.storeWait] = WxState.wait := by
  exact ⟨rfl, rfl⟩

/-- C2 (amended): within one wait episode — i.e. excluding the reuse store
of `event_impl::wait` that re-initializes a timed-out record to `wait` —
the state of a Waitx starting at `wait` is changed by at most one successful
CAS (so at most one of the signaler and the timer expirer wins), and once it
has left `wait` it never changes again. -/
theorem waitx_single_transition (ops ops2 : List WxOp)
    (h : WxOp.storeWait ∉ ops) (h2 : WxOp.storeWait ∉ ops2) :
    wxWinCount WxState.wait ops ≤ 1 ∧
    (wxRun WxState.wait ops ≠ WxState.wait →
      wxRun WxState.wait (ops ++ ops2) = wxRun WxState.wait ops) := by
  constructor
  · cases ops with
    | nil => simp [wxWinCount]
    | cons op rest =>
        have hop : op ≠ WxOp.storeWait := by
          intro hh; exact h (by simp [hh])
        have hrest : WxOp.storeWait ∉ rest := fun hh => h (List.mem_cons_of_mem _ hh)
        have hstep : wxStep WxState.wait op ≠ WxState.wait := by
          cases op <;> simp [wxStep, casFromWait] at hop ⊢
        have := wxWinCount_frozen hstep hrest
        simp only [wxWinCount, this]
        split <;> omega
  · intro hne
    rw [wxRun_append]
    exact wxRun_frozen hne h2

/-- C2, witness for `waitx_single_transition`: a signal wins, then a timer
CAS arrives late and changes nothing. -/
theorem waitx_single_transition_witness :
    wxWinCount WxState.wait [WxOp.casReady] ≤ 1 ∧
    wxRun WxState.wait ([WxOp.casReady] ++ [WxOp.casTimeout]) =
      wxRun WxState.wait [WxOp.casReady] := by
  have h := waitx_single_transition [WxOp.casReady] [WxOp.casTimeout]
    (by decide) (by decide)
  exact ⟨h.1, h.2 (by decide)⟩

/-- C5 (confirmed): `event_impl::wait(ms)` — if the event is signaled on
entry, it returns true immediately and the signaled flag is cleared iff the
event is auto-reset (`!_manual_reset`); if not signaled and `ms == 0`, it
returns false with the state unchanged. -/
theorem event_wait_fast_spec (e : EventSt) (ms : Nat) :
    (e.signaled = true →
      (event_wait_fast e ms).1 = WaitFast.ret true ∧
      ((event_wait_fast e ms).2.signaled = false ↔ e.manual_reset = false) ∧
      (event_wait_fast e ms).2.manual_reset = e.manual_reset) ∧
    (e.signaled = false → ms = 0 →
      event_wait_fast e ms = (WaitFast.ret false, e)) := by
  obtain ⟨sig, mr⟩ := e
  constructor
  · rintro rfl
    cases mr <;> simp [event_wait_fast]
  · rintro rfl rfl
    simp [event_wait_fast]

/-- C5, witness for `event_wait_fast_spec`: a signaled auto-reset event
(cleared, returns true) and an unsignaled event with `ms = 0`. -/
theorem event_wait_fast_spec_witness :
    ((event_wait_fast ⟨true, false⟩ 5).1 = WaitFast.ret true ∧
      ((event_wait_fast ⟨true, false⟩ 5).2.signaled = false ↔
        (EventSt.mk true false).manual_reset = false) ∧
      (event_wait_fast ⟨true, false⟩ 5).2.manual_reset =
        (EventSt.mk true false).manual_reset) ∧
    event_wait_fast ⟨false, true⟩ 0 = (WaitFast.ret false, ⟨false, true⟩) :=
  ⟨(event_wait_fast_spec ⟨true, false⟩ 5).1 rfl,
   (event_wait_fast_spec ⟨false, true⟩ 0).2 rfl rfl⟩

/-- C6 (confirmed): `wait_group::done()` decrements the uint32 counter by
exactly one and reports `signal()` exactly when the counter reaches zero;
called with the counter already at zero, the wrapped value trips
`CHECK(x != (uint32)-1)` and the program aborts. -/
theorem wait_group_done_spec (wg : Nat) (hlt : wg < 2 ^ 32) :
    (0 < wg →
      wait_group_done wg = DoneRes.ok (wg - 1) (decide (wg - 1 = 0))) ∧
    (wg = 0 → wait_group_done wg = DoneRes.abort) := by
  constructor
  · intro hpos
    have hw : wg = (wg - 1) + 1 := (Nat.succ_pred_eq_of_pos hpos).symm
    have hsplit : wg + (2 ^ 32 - 1) = (wg - 1) + 1 * 2 ^ 32 := by
      conv_lhs => rw [hw]
      rw [Nat.add_assoc]
      norm_num
    have hlt' : wg - 1 < 2 ^ 32 := Nat.lt_of_le_of_lt (Nat.sub_le wg 1) hlt
    have hne : wg - 1 ≠ 2 ^ 32 - 1 := fun hc =>
      Nat.ne_of_lt hlt (hw.trans (by rw [hc]; norm_num))
    unfold wait_group_done
    simp only [hsplit, Nat.add_mul_mod_self_right, Nat.mod_eq_of_lt hlt']
    rw [if_neg hne]
  · rintro rfl
    unfold wait_group_done
    norm_num

/-- C6, witness for `wait_group_done_spec`: counters 1 (reaches zero,
signals) and 0 (aborts). -/
theorem wait_group_done_spec_witness :
    wait_group_done 1 = DoneRes.ok 0 true ∧
    wait_group_done 0 = DoneRes.abort :=
  ⟨(wait_group_done_spec 1 (by norm_num)).1 (by norm_num),
   (wait_group_done_spec 0 (by norm_num)).2 rfl⟩

/-- C10 (confirmed): `co::sleep(ms)` called outside a scheduler thread does
not abort — it falls back to a plain blocking thread sleep of `ms` ms —
while `yield()`, `add_timer()`, `on_stack()` and `timeout()` fail their
`CHECK(s)` runtime check (a fatal log) when no scheduler thread-local is
set. -/
theorem co_api_thread_spec (ms p : Nat) :
    co_sleep none ms = SleepAct.threadSleep ms ∧
    co_yield none = Except.error Fatal.checkFailed ∧
    co_add_timer none ms = Except.error Fatal.checkFailed ∧
    co_on_stack none p = Except.error Fatal.checkFailed ∧
    co_timeout none = Except.error Fatal.checkFailed :=
  ⟨rfl, rfl, rfl, rfl, rfl⟩

/-- C8, counterexample: with 2 schedulers past the warm-up fill, first
choice `i = 0` with current CPU time 10, alternative `k = 1` with current
CPU time 5 and last recorded sample 5, the code's equality shortcut
(`si.cputime[k] == tk`, sched.cc:344) keeps the *first* choice even though
its CPU time (10) is worse than the alternative's last sample (5): the code
picks scheduler 0, the claim's rule picks scheduler 1. -/
theorem sched_next_counterexample : ¬ schedPlacementClaim := by
  intro h
  have hc := h 2 (fun j => if j = 0 then 10 else 5)
    { nco := 2, sample := fun _ => 5 } 0 (by decide)
  have h1 : (sched_next 2 (fun j => if j = 0 then 10 else 5)
      { nco := 2, sample := fun _ => 5 } 0).1 = 0 := rfl
  have h2 : (sched_next_per_claim 2 (fun j => if j = 0 then 10 else 5)
      { nco := 2, sample := fun _ => 5 } 0).1 = 1 := rfl
  rw [h1, h2] at hc
  exact absurd hc (by decide)

/-- C8 (amended): the first N submitted tasks (N = number of schedulers) are
placed round-robin, one per scheduler.  Every later task is placed by a
two-choice rule over *current* CPU times: with first choice `i` and
alternative `k = (i != n-1 ? i+1 : 0)`, the first choice is used if the
alternative's last recorded sample already equals its current CPU time, or
if the first choice's current CPU time is not worse than the alternative's
current CPU time; otherwise the alternative is used.  The alternative's
sample is refreshed to its current CPU time whenever it differs, regardless
of which scheduler is chosen. -/
theorem sched_next_spec (n : Nat) (cpu : Nat → Int) (st : NextState) (i : Nat) :
    (st.nco < n →
      sched_next n cpu st i = (st.nco, { st with nco := st.nco + 1 })) ∧
    (¬ st.nco < n →
      (sched_next n cpu st i).1 =
        (if st.sample (if i ≠ n - 1 then i + 1 else 0) =
              cpu (if i ≠ n - 1 then i + 1 else 0) ∨
            cpu i ≤ cpu (if i ≠ n - 1 then i + 1 else 0)
         then i else (if i ≠ n - 1 then i + 1 else 0)) ∧
      (sched_next n cpu st i).2.nco = st.nco ∧
      ∀ j, (sched_next n cpu st i).2.sample j =
        (if j = (if i ≠ n - 1 then i + 1 else 0) ∧
              st.sample (if i ≠ n - 1 then i + 1 else 0) ≠
                cpu (if i ≠ n - 1 then i + 1 else 0)
         then cpu (if i ≠ n - 1 then i + 1 else 0) else st.sample j)) := by
  constructor
  · intro hlt
    unfold sched_next
    rw [if_pos hlt]
  · intro hge
    set k := if i ≠ n - 1 then i + 1 else 0 with hk
    set f := fun j => if j = k then cpu k else st.sample j with hf
    have heq : sched_next n cpu st i =
        (if st.sample k = cpu k then (i, st)
         else if cpu i ≤ cpu k then (i, { st with sample := f })
         else (k, { st with sample := f })) := by
      unfold sched_next
      rw [if_neg hge]
    by_cases hsk : st.sample k = cpu k
    · have h1 : sched_next n cpu st i = (i, st) := heq.trans (if_pos hsk)
      rw [h1]
      exact ⟨(if_pos (Or.inl hsk)).symm, rfl,
        fun j => (if_neg (fun hj => hj.2 hsk)).symm⟩
    · by_cases hle : cpu i ≤ cpu k
      · have h1 : sched_next n cpu st i = (i, { st with sample := f }) :=
          heq.trans ((if_neg hsk).trans (if_pos hle))
        rw [h1]
        refine ⟨(if_pos (Or.inr hle)).symm, rfl, fun j => ?_⟩
        show (if j = k then cpu k else st.sample j) = _
        by_cases hj : j = k
        · rw [if_pos hj, if_pos ⟨hj, hsk⟩]
        · rw [if_neg hj, if_neg (fun hc => hj hc.1)]
      · have h1 : sched_next n cpu st i = (k, { st with sample := f }) :=
          heq.trans ((if_neg hsk).trans (if_neg hle))
        rw [h1]
        refine ⟨(if_neg (fun hc => hc.elim hsk hle)).symm, rfl, fun j => ?_⟩
        show (if j = k then cpu k else st.sample j) = _
        by_cases hj : j = k
        · rw [if_pos hj, if_pos ⟨hj, hsk⟩]
        · rw [if_neg hj, if_neg (fun hc => hj hc.1)]

/-- C8, witness for `sched_next_spec`: the round-robin phase at task 0 of 2,
and the two-choice phase at the counterexample's input (shortcut keeps
scheduler 0). -/
theorem sched_next_spec_witness :
    sched_next 2 (fun _ => 0) { nco := 0, sample := fun _ => 0 } 0 =
      (0, { nco := 1, sample := fun _ => (0 : Int) }) ∧
    (sched_next 2 (fun j => if j = 0 then 10 else 5)
        { nco := 2, sample := fun _ => 5 } 0).1 = 0 := by
  constructor
  · exact (sched_next_spec 2 (fun _ => 0) { nco := 0, sample := fun _ => 0 } 0).1
      (by decide)
  · have h := (sched_next_spec 2 (fun j => if j = 0 then 10 else 5)
      { nco := 2, sample := fun _ => 5 } 0).2 (by decide)
    rw [h.1]
    rfl

/-- C3 (confirmed): `pipe_impl::write` on a closed channel unlocks and jumps
to `enod` (`g_done = false`) before touching the buffer or the wait queue
(co.cc:604-607); `pipe_impl::read` on a channel whose buffer is empty and
which is closed does the same (co.cc:529-533).  In both cases the returned
state is the input state: no data moves. -/
theorem pipe_closed_spec {α : Type} (c : PipeSt α) (p : α) :
    (pipe_is_closed c = true → pipe_write c p = WriteRes.closed c) ∧
    (pipe_is_closed c = true → c.rx = c.wx → c.full = false →
      pipe_read c = ReadRes.closedEmpty c) := by
  constructor
  · intro h
    simp [pipe_write, h]
  · intro h hrw hf
    simp [pipe_read, hrw, hf, h]

/-- C3, witness for `pipe_closed_spec`: a closed empty one-block channel. -/
theorem pipe_closed_spec_witness :
    pipe_write cexChan 7 = WriteRes.closed cexChan ∧
    pipe_read cexChan = ReadRes.closedEmpty cexChan :=
  ⟨(pipe_closed_spec cexChan 7).1 rfl, (pipe_closed_spec cexChan 7).2 rfl rfl rfl⟩

lemma close_wake_eq {α : Type} (q : List (PipeWaitx α)) :
    close_wake q = (q.filter (fun w => decide (w.state = WxState.wait))).map
      (fun w => { w with state := WxState.ready, done := 2 }) := by
  induction q with
  | nil => rfl
  | cons w ws ih =>
      by_cases hw : w.state = WxState.wait
      · simp [close_wake, casFromWait, hw, ih]
      · simp [close_wake, casFromWait, hw, ih]

/-- C7 (confirmed): `pipe_impl::close()` — the caller whose CAS moves
`_closed` from 0 to 1, holding the lock, wakes (when the buffer is empty)
exactly the pending waiters whose CAS `wait → ready` succeeds, each with the
channel-closed payload `done = 2` and state `ready`, frees the rest, and
finally stores `_closed = 2`; a caller that observes `_closed == 1`
spin-sleeps until the state reaches 2. -/
theorem pipe_close_spec {α : Type} (c : PipeSt α) :
    (c.closed = 0 → c.rx = c.wx → c.full = false →
      pipe_close c = CloseRes.completed { c with wq := [], closed := 2 }
        ((c.wq.filter (fun w => decide (w.state = WxState.wait))).map
          (fun w => { w with state := WxState.ready, done := 2 }))) ∧
    (c.closed = 0 → ¬(c.rx = c.wx ∧ c.full = false) →
      pipe_close c = CloseRes.completed { c with closed := 2 } []) ∧
    (c.closed = 1 → pipe_close c = CloseRes.spin c) := by
  refine ⟨?_, ?_, ?_⟩
  · intro h0 hrw hf
    simp [pipe_close, h0, hrw, hf, close_wake_eq]
  · intro h0 hne
    simp [pipe_close, h0, hne]
  · intro h1
    simp [pipe_close, h1]

/-- C7, witness for `pipe_close_spec`: an open empty channel with one
waiting reader and one timed-out reader (only the former is woken), and a
channel already in the closing state (the caller spins). -/
theorem pipe_close_spec_witness :
    pipe_close cexChanOpen =
      CloseRes.completed { cexChanOpen with wq := [], closed := 2 }
        [{ cexWaitxW with state := WxState.ready, done := 2 }] ∧
    pipe_close { cexChan with closed := 1 } =
      CloseRes.spin { cexChan with closed := 1 } :=
  ⟨(pipe_close_spec cexChanOpen).1 rfl rfl rfl,
   (pipe_close_spec { cexChan with closed := 1 }).2.2 rfl⟩

lemma timer_expire_eq (now : Int) (l : List (Int × TimerCo))
    (hs : l.Pairwise (fun a b => a.1 ≤ b.1)) :
    timer_expire now l =
      ((l.filter (fun e => decide (e.1 ≤ now) && timer_wakes e.2)).map (·.2),
       l.filter (fun e => decide (now < e.1))) := by
  induction l with
  | nil => rfl
  | cons e ts ih =>
      obtain ⟨hd, hp⟩ := List.pairwise_cons.mp hs
      obtain ⟨k, c⟩ := e
      by_cases hk : k > now
      · have hte : timer_expire now ((k, c) :: ts) = ([], (k, c) :: ts) := by
          unfold timer_expire
          rw [if_pos hk]
        have hpf : ¬ ((decide (k ≤ now) && timer_wakes c) = true) := by
          rw [decide_eq_false (not_le.mpr hk), Bool.false_and]
          exact Bool.false_ne_true
        have h1 : ts.filter (fun x => decide (x.1 ≤ now) && timer_wakes x.2) = [] := by
          refine List.filter_eq_nil_iff.mpr (fun x hx hc => ?_)
          rcases Bool.eq_false_or_eq_true (decide (x.1 ≤ now)) with h | h
          · exact absurd (of_decide_eq_true h)
              (not_le.mpr (lt_of_lt_of_le hk (hd x hx)))
          · rw [h, Bool.false_and] at hc
            exact Bool.false_ne_true hc
        have h2 : ts.filter (fun x => decide (now < x.1)) = ts :=
          List.filter_eq_self.mpr (fun x hx => decide_eq_true (lt_of_lt_of_le hk (hd x hx)))
        rw [hte,
            @List.filter_cons_of_neg _ (fun e => decide (e.1 ≤ now) && timer_wakes e.2)
              (k, c) ts hpf, h1,
            @List.filter_cons_of_pos _ (fun e => decide (now < e.1))
              (k, c) ts (decide_eq_true hk), h2]
        rfl
      · push_neg at hk
        have ihs := ih hp
        have hte : timer_expire now ((k, c) :: ts) =
            (if timer_wakes c then c :: (timer_expire now ts).1
             else (timer_expire now ts).1, (timer_expire now ts).2) := by
          conv_lhs => unfold timer_expire
          rw [if_neg (not_lt.mpr hk)]
        have hpf2 : ¬ (decide (now < k) = true) := by
          rw [decide_eq_false (not_lt.mpr hk)]
          exact Bool.false_ne_true
        rcases Bool.eq_false_or_eq_true (timer_wakes c) with hw | hw
        · have hpf : (decide (k ≤ now) && timer_wakes c) = true := by
            rw [decide_eq_true hk, Bool.true_and]
            exact hw
          rw [hte, if_pos hw, ihs,
              @List.filter_cons_of_pos _ (fun e => decide (e.1 ≤ now) && timer_wakes e.2)
                (k, c) ts hpf,
              @List.filter_cons_of_neg _ (fun e => decide (now < e.1))
                (k, c) ts hpf2]
          rfl
        · have hpf : ¬ ((decide (k ≤ now) && timer_wakes c) = true) := by
            rw [decide_eq_true hk, Bool.true_and, hw]
            exact Bool.false_ne_true
          have hnw : ¬ (timer_wakes c = true) := fun hc => Bool.false_ne_true (hw ▸ hc)
          rw [hte, if_neg hnw, ihs,
              @List.filter_cons_of_neg _ (fun e => decide (e.1 ≤ now) && timer_wakes e.2)
                (k, c) ts hpf,
              @List.filter_cons_of_neg _ (fun e => decide (now < e.1))
                (k, c) ts hpf2]

/-- C4 (confirmed): `TimerManager::check_timeout` removes exactly the
entries with deadline ≤ now (collecting the coroutines of those that pass
the waitx wake test: no waitx, or the CAS `wait → timeout` wins), and
returns the poller wait time: `(uint32)-1` when no timer remains, otherwise
a `wait_ms` with `now + wait_ms ≤ d` for every remaining deadline `d` — in
particular the earliest. -/
theorem check_timeout_spec (now : Int) (timer : List (Int × TimerCo))
    (hs : timer.Pairwise (fun a b => a.1 ≤ b.1)) :
    (check_timeout now timer).2.1 = timer.filter (fun e => decide (now < e.1)) ∧
    (check_timeout now timer).1 =
      (timer.filter (fun e => decide (e.1 ≤ now) && timer_wakes e.2)).map (·.2) ∧
    ((check_timeout now timer).2.1 = [] →
      (check_timeout now timer).2.2 = 2 ^ 32 - 1) ∧
    (∀ e ∈ (check_timeout now timer).2.1,
      now + ((check_timeout now timer).2.2 : Int) ≤ e.1) := by
  cases timer with
  | nil =>
      exact ⟨rfl, rfl, fun _ => rfl, fun e he => absurd he (List.not_mem_nil e)⟩
  | cons t ts =>
      have hexp := timer_expire_eq now (t :: ts) hs
      set F2 := (t :: ts).filter (fun e => decide (now < e.1)) with hF2
      have hct : check_timeout now (t :: ts) =
          (((t :: ts).filter (fun e => decide (e.1 ≤ now) && timer_wakes e.2)).map (·.2),
            F2, next_wait now F2) := by
        have h0 : check_timeout now (t :: ts) =
            ((timer_expire now (t :: ts)).1, (timer_expire now (t :: ts)).2,
              next_wait now (timer_expire now (t :: ts)).2) := rfl
        rw [h0, hexp]
      rw [hct]
      dsimp only
      refine ⟨rfl, rfl, fun hnil => ?_, fun e he => ?_⟩
      · rw [hnil]
        rfl
      · rcases hfl : F2 with _ | ⟨⟨k1, c1⟩, tl⟩
        · rw [hfl] at he
          exact absurd he (List.not_mem_nil e)
        · rw [hfl] at he
          have hwait : next_wait now ((k1, c1) :: tl) = (k1 - now).toNat % 2 ^ 32 := rfl
          rw [hwait]
          have hmem : ((k1, c1) : Int × TimerCo) ∈ F2 := by
            rw [hfl]
            exact List.mem_cons_self _ _
          rw [hF2] at hmem
          have hp := List.of_mem_filter hmem
          have hhd : now < k1 := of_decide_eq_true hp
          have hhe : k1 ≤ e.1 := by
            have hpf : F2.Pairwise (fun a b => a.1 ≤ b.1) := hs.filter _
            rw [hfl] at hpf
            rcases List.mem_cons.mp he with rfl | htl
            · exact le_refl _
            · exact (List.pairwise_cons.mp hpf).1 e htl
          have h1 : (((k1 - now).toNat % 2 ^ 32 : ℕ) : ℤ) ≤ ((k1 - now).toNat : ℤ) :=
            Int.ofNat_le.mpr (Nat.mod_le _ _)
          have h2 : (((k1 - now).toNat : ℕ) : ℤ) = k1 - now :=
            Int.toNat_of_nonneg (Int.sub_nonneg.mpr (le_of_lt hhd))
          have h3 := h1.trans (le_of_eq h2)
          calc now + (((k1 - now).toNat % 2 ^ 32 : ℕ) : ℤ)
              ≤ now + (k1 - now) := add_le_add_left h3 now
            _ = k1 := by rw [add_comm, Int.sub_add_cancel]
            _ ≤ e.1 := hhe

lemma rx_adv_mod {N rx : Nat} (h : rx < N) (i : Nat) :
    ((if rx + 1 = N then 0 else rx + 1) + i) % N = (rx + 1 + i) % N := by
  split_ifs with hN
  · rw [hN]
    simp [Nat.add_mod_left]
  · rfl

lemma chanList_cons {α : Type} (c : PipeSt α) (h : PipeWF c) (hne : ringLen c ≠ 0) :
    chanList c = c.buf c.rx ::
      (List.range (ringLen c - 1)).map (fun i => c.buf ((c.rx + 1 + i) % c.N)) := by
  obtain ⟨hN, hrx, hwx, hfull⟩ := h
  obtain ⟨n, hn⟩ : ∃ n, ringLen c = n + 1 :=
    ⟨ringLen c - 1, (Nat.succ_pred_eq_of_pos (Nat.pos_of_ne_zero hne)).symm⟩
  unfold chanList
  rw [hn, List.range_succ_eq_map, List.map_cons, List.map_map]
  congr 1
  · rw [Nat.add_zero, Nat.mod_eq_of_lt hrx]
  · simp only [Nat.add_sub_cancel]
    have : (fun i => c.buf ((c.rx + i) % c.N)) ∘ Nat.succ =
        fun i => c.buf ((c.rx + 1 + i) % c.N) := by
      funext i
      simp only [Function.comp_apply]
      congr 2
      exact (Nat.add_right_comm c.rx 1 i).symm
    rw [this]

lemma chanList_shift {α : Type} (c c' : PipeSt α) (hN : c'.N = c.N)
    (hbuf : c'.buf = c.buf)
    (hrx : c'.rx = if c.rx + 1 = c.N then 0 else c.rx + 1)
    (hrxlt : c.rx < c.N)
    (hlen : ringLen c' = ringLen c - 1) :
    chanList c' = (List.range (ringLen c - 1)).map
      (fun i => c.buf ((c.rx + 1 + i) % c.N)) := by
  unfold chanList
  rw [hlen, hbuf, hN]
  have : (fun i => c.buf ((c'.rx + i) % c.N)) =
      fun i => c.buf ((c.rx + 1 + i) % c.N) := by
    funext i
    rw [hrx, rx_adv_mod hrxlt]
  rw [this]

lemma ring_sub_one {N rx wx : Nat} (hN : 0 < N) (hrx : rx < N) (hwx : wx < N)
    (hne : rx ≠ wx) :
    (if (if rx + 1 = N then 0 else rx + 1) ≤ wx then
       wx - (if rx + 1 = N then 0 else rx + 1)
     else wx + N - (if rx + 1 = N then 0 else rx + 1)) =
    (if rx ≤ wx then wx - rx else wx + N - rx) - 1 := by
  rcases eq_or_ne (rx + 1) N with h1 | h1
  · simp only [if_pos h1]
    split_ifs with hc2 hc3 hc3 hc3
    · exact absurd (Nat.le_antisymm hc3 (by rw [← h1] at hwx; exact Nat.lt_succ_iff.mp hwx))
        hne
    · rw [Nat.sub_zero, ← h1, Nat.sub_sub, Nat.add_sub_cancel]
    · exact absurd (Nat.zero_le wx) hc2
    · exact absurd (Nat.zero_le wx) hc2
  · simp only [if_neg h1]
    split_ifs with hc2 hc3 hc3
    · rw [Nat.sub_sub]
    · exact absurd (Nat.le_of_succ_le hc2) hc3
    · exact absurd (Nat.le_antisymm hc3 (Nat.lt_succ_iff.mp (Nat.lt_of_not_le hc2))) hne
    · rw [Nat.sub_sub]

lemma ring_sub_one_full {N rx : Nat} (hN : 0 < N) (hrx : rx < N) :
    (if (if rx + 1 = N then 0 else rx + 1) ≤ rx then
       rx - (if rx + 1 = N then 0 else rx + 1)
     else rx + N - (if rx + 1 = N then 0 else rx + 1)) = N - 1 := by
  rcases eq_or_ne (rx + 1) N with h1 | h1
  · simp only [if_pos h1]
    rw [if_pos (Nat.zero_le rx), Nat.sub_zero, ← h1, Nat.add_sub_cancel]
  · simp only [if_neg h1]
    rw [if_neg (Nat.not_succ_le_self rx), ← Nat.sub_sub, Nat.add_sub_cancel_left]

/-- C9 (confirmed): on a closed channel, `pipe_impl::read` still succeeds
while the buffer holds blocks — the closed test (co.cc:530) sits *after*
the partial- and full-buffer branches.  Each such read returns the oldest
buffered block (`g_done = true`) and, when no writer is parked on the wait
queue, leaves exactly the remaining blocks in FIFO order; only once the
buffer is empty do readers observe `g_done = false`. -/
theorem pipe_read_closed_fifo {α : Type} (c : PipeSt α) (h : PipeWF c)
    (hcl : pipe_is_closed c = true) :
    (chanList c ≠ [] → ∃ v c' wo,
      pipe_read c = ReadRes.got v c' wo ∧
      chanList c = v :: (chanList c).tail ∧
      (c.wq = [] → chanList c' = (chanList c).tail ∧ wo = none)) ∧
    (chanList c = [] → pipe_read c = ReadRes.closedEmpty c) := by
  obtain ⟨hN, hrx, hwx, hfull⟩ := h
  constructor
  · intro hne
    have hlen0 : ringLen c ≠ 0 := by
      intro h0
      apply hne
      unfold chanList
      rw [h0]
      rfl
    have hcons := chanList_cons c ⟨hN, hrx, hwx, hfull⟩ hlen0
    by_cases hrw : c.rx = c.wx
    · -- buffer full (empty is excluded by hlen0)
      have hf : c.full = true := by
        rcases Bool.eq_false_or_eq_true c.full with hf0 | hf0
        · exact hf0
        · exfalso
          apply hlen0
          unfold ringLen
          rw [hf0, if_neg Bool.false_ne_true, ← hrw, if_pos (le_refl c.rx), Nat.sub_self]
      have hread : pipe_read c =
          ReadRes.got (c.buf c.rx)
            (read_drain (read_block c).2 (read_block c).2.wq).1
            (read_drain (read_block c).2 (read_block c).2.wq).2 := by
        unfold pipe_read
        rw [if_neg (not_not_intro hrw), if_pos hf]
        rfl
      refine ⟨c.buf c.rx, _, _, hread, ?_, ?_⟩
      · rw [hcons]
        rfl
      · intro hq
        have hwq2 : (read_block c).2.wq = [] := hq
        rw [hwq2]
        have hdrain : read_drain (read_block c).2 [] =
            ({ (read_block c).2 with wq := [], full := false }, none) := rfl
        rw [hdrain]
        refine ⟨?_, rfl⟩
        have hlen : ringLen { (read_block c).2 with wq := [], full := false } =
            ringLen c - 1 := by
          have h1 : ringLen { (read_block c).2 with wq := [], full := false } =
              (if (if c.rx + 1 = c.N then 0 else c.rx + 1) ≤ c.wx then
                 c.wx - (if c.rx + 1 = c.N then 0 else c.rx + 1)
               else c.wx + c.N - (if c.rx + 1 = c.N then 0 else c.rx + 1)) := rfl
          have h2 : ringLen c = c.N := by
            unfold ringLen
            rw [hf, if_pos rfl]
          rw [h1, h2, ← hrw]
          exact ring_sub_one_full hN hrx
        have hshift := chanList_shift c
          { (read_block c).2 with wq := [], full := false } rfl rfl rfl hrx hlen
        rw [hshift, hcons]
        rfl
    · -- buffer partial
      have hf : c.full = false := by
        rcases Bool.eq_false_or_eq_true c.full with hf0 | hf0
        · exact absurd (hfull hf0) hrw
        · exact hf0
      have hread : pipe_read c =
          ReadRes.got (c.buf c.rx) (read_block c).2 none := by
        unfold pipe_read
        rw [if_pos hrw]
        rfl
      refine ⟨c.buf c.rx, _, _, hread, ?_, ?_⟩
      · rw [hcons]
        rfl
      · intro _
        refine ⟨?_, rfl⟩
        have hlen : ringLen (read_block c).2 = ringLen c - 1 := by
          have h1 : ringLen (read_block c).2 =
              (if c.full = true then c.N else
                if (if c.rx + 1 = c.N then 0 else c.rx + 1) ≤ c.wx then
                  c.wx - (if c.rx + 1 = c.N then 0 else c.rx + 1)
                else c.wx + c.N - (if c.rx + 1 = c.N then 0 else c.rx + 1)) := rfl
          rw [h1]
          unfold ringLen
          rw [hf, if_neg Bool.false_ne_true]
          exact ring_sub_one hN hrx hwx hrw
        have hshift := chanList_shift c (read_block c).2 rfl rfl rfl hrx hlen
        rw [hshift, hcons]
        rfl
  · intro hnil
    have hlen0 : ringLen c = 0 := by
      by_contra h0
      rw [chanList_cons c ⟨hN, hrx, hwx, hfull⟩ h0] at hnil
      exact List.cons_ne_nil _ _ hnil
    have hf : c.full = false := by
      rcases Bool.eq_false_or_eq_true c.full with hf0 | hf0
      · unfold ringLen at hlen0
        rw [hf0, if_pos rfl] at hlen0
        exact absurd hlen0 (Nat.pos_iff_ne_zero.mp hN)
      · exact hf0
    have hrw : c.rx = c.wx := by
      unfold ringLen at hlen0
      rw [hf, if_neg Bool.false_ne_true] at hlen0
      by_cases hle : c.rx ≤ c.wx
      · rw [if_pos hle] at hlen0
        exact Nat.le_antisymm hle (Nat.sub_eq_zero_iff_le.mp hlen0)
      · rw [if_neg hle] at hlen0
        exact absurd (Nat.lt_of_lt_of_le hrx (Nat.le_add_left c.N c.wx))
          (Nat.not_lt.mpr (Nat.sub_eq_zero_iff_le.mp hlen0))
    have hnf : ¬ (c.full = true) := fun hc => Bool.false_ne_true (hf ▸ hc)
    unfold pipe_read
    rw [if_neg (not_not_intro hrw), if_neg hnf, if_pos hcl]

/-- C4, witness for `check_timeout_spec`: at `now = 10`, the entry at
deadline 5 expires (and is collected: no waitx) while the entry at
deadline 11 remains, and the returned wait keeps `now + wait ≤ 11`. -/
theorem check_timeout_spec_witness :
    (check_timeout 10 [(5, ⟨1, none⟩), (11, ⟨2, none⟩)]).2.1 = [(11, ⟨2, none⟩)] ∧
    (check_timeout 10 [(5, ⟨1, none⟩), (11, ⟨2, none⟩)]).1 = [⟨1, none⟩] ∧
    (10 : Int) + ((check_timeout 10 [(5, ⟨1, none⟩), (11, ⟨2, none⟩)]).2.2 : Int) ≤
      (11, (⟨2, none⟩ : TimerCo)).1 := by
  have h := check_timeout_spec 10 [(5, ⟨1, none⟩), (11, ⟨2, none⟩)] (by decide)
  refine ⟨h.1.trans (by decide), h.2.1.trans (by decide), ?_⟩
  exact h.2.2.2 (11, ⟨2, none⟩) (by rw [h.1]; decide)

/-- C9, witness for `pipe_read_closed_fifo`: a closed two-block channel
holding one pending block. -/
theorem pipe_read_closed_fifo_witness :
    ∃ v c' wo, pipe_read cexChanC9 = ReadRes.got v c' wo ∧
      chanList cexChanC9 = v :: (chanList cexChanC9).tail ∧
      (cexChanC9.wq = [] → chanList c' = (chanList cexChanC9).tail ∧ wo = none) :=
  (pipe_read_closed_fifo cexChanC9
    ⟨by decide, by decide, by decide, by decide⟩ rfl).1 (by decide)

/-! ### Mutex invariants -/

lemma updPC_self (f : Wtr → MuPC) (w : Wtr) (p : MuPC) : updPC f w p w = p := by
  simp [updPC]

lemma updPC_other (f : Wtr → MuPC) (w u : Wtr) (p : MuPC) (h : u ≠ w) :
    updPC f w p u = f u := by
  simp [updPC, h]

lemma muInv_init : MuInv mutexInit := by
  constructor
  · intro w w' hw
    simp [mutexInit] at hw
  · intro _ w
    simp [mutexInit]

lemma muStep_inv {s s' : MuSt} {a : MuStep} (h : MuInv s)
    (hs : muStep s a = some s') : MuInv s' := by
  obtain ⟨huniq, hfree⟩ := h
  cases a with
  | lockFast w =>
      simp only [muStep] at hs
      split_ifs at hs with hc
      · obtain ⟨hidle, hlock⟩ := hc
        injection hs with hs
        subst hs
        constructor
        · intro u u' hu hu'
          dsimp only at hu hu'
          by_cases h1 : u = w
          · by_cases h2 : u' = w
            · rw [h1, h2]
            · rw [updPC_other _ _ _ _ h2] at hu'
              exact absurd hu' (hfree (Or.inl hlock) u')
          · rw [updPC_other _ _ _ _ h1] at hu
            exact absurd hu (hfree (Or.inl hlock) u)
        · intro hlk
          dsimp only at hlk
          exact absurd hlk (by norm_num)
  | tryLockOk w =>
      simp only [muStep] at hs
      split_ifs at hs with hc
      · obtain ⟨hidle, hlock⟩ := hc
        injection hs with hs
        subst hs
        constructor
        · intro u u' hu hu'
          dsimp only at hu hu'
          by_cases h1 : u = w
          · by_cases h2 : u' = w
            · rw [h1, h2]
            · rw [updPC_other _ _ _ _ h2] at hu'
              exact absurd hu' (hfree (Or.inl hlock) u')
          · rw [updPC_other _ _ _ _ h1] at hu
            exact absurd hu (hfree (Or.inl hlock) u)
        · intro hlk
          dsimp only at hlk
          exact absurd hlk (by norm_num)
  | lockEnq w =>
      simp only [muStep] at hs
      split_ifs at hs with hc
      · obtain ⟨hidle, hlock⟩ := hc
        injection hs with hs
        subst hs
        have hpc : ∀ u, updPC s.pc w MuPC.queued u = MuPC.holding →
            s.pc u = MuPC.holding := by
          intro u hu
          by_cases h1 : u = w
          · rw [h1, updPC_self] at hu
            exact absurd hu (by simp)
          · rwa [updPC_other _ _ _ _ h1] at hu
        constructor
        · intro u u' hu hu'
          dsimp only at hu hu'
          exact huniq u u' (hpc u hu) (hpc u' hu')
        · intro hlk u hu
          dsimp only at hlk hu
          exact hfree hlk u (hpc u hu)
  | unlockEmpty w =>
      simp only [muStep] at hs
      split_ifs at hs with hc
      · obtain ⟨hhold, hwq⟩ := hc
        injection hs with hs
        subst hs
        have hpc : ∀ u, updPC s.pc w MuPC.idle u = MuPC.holding → False := by
          intro u hu
          by_cases h1 : u = w
          · rw [h1, updPC_self] at hu
            exact absurd hu (by simp)
          · rw [updPC_other _ _ _ _ h1] at hu
            exact h1 (huniq u w hu hhold)
        constructor
        · intro u u' hu _
          dsimp only at hu
          exact absurd hu (fun hc' => hpc u hc')
        · intro _ u hu
          dsimp only at hu
          exact hpc u hu
  | unlockPop w =>
      simp only [muStep] at hs
      rcases hwq : s.wq with _ | ⟨e, rest⟩
      · rw [hwq] at hs
        exact absurd hs (by simp)
      · rw [hwq] at hs
        split_ifs at hs with hhold
        · have h0 : s.lock ≠ 0 := fun hc => hfree (Or.inl hc) w hhold
          have h2lk : s.lock ≠ 2 := fun hc => hfree (Or.inr hc) w hhold
          cases e with
          | co j =>
              injection hs with hs
              subst hs
              constructor
              · intro u u' hu hu'
                dsimp only at hu hu'
                by_cases h1 : u = Wtr.co j
                · by_cases h2 : u' = Wtr.co j
                  · rw [h1, h2]
                  · rw [updPC_other _ _ _ _ h2] at hu'
                    by_cases h3 : u' = w
                    · rw [h3, updPC_self] at hu'
                      exact absurd hu' (by simp)
                    · rw [updPC_other _ _ _ _ h3] at hu'
                      exact absurd (huniq u' w hu' hhold) h3
                · rw [updPC_other _ _ _ _ h1] at hu
                  by_cases h3 : u = w
                  · rw [h3, updPC_self] at hu
                    exact absurd hu (by simp)
                  · rw [updPC_other _ _ _ _ h3] at hu
                    exact absurd (huniq u w hu hhold) h3
              · intro hlk
                dsimp only at hlk
                rcases hlk with hlk | hlk
                · exact absurd hlk h0
                · exact absurd hlk h2lk
          | null =>
              injection hs with hs
              subst hs
              have hpc : ∀ u, updPC s.pc w MuPC.idle u = MuPC.holding → False := by
                intro u hu
                by_cases h1 : u = w
                · rw [h1, updPC_self] at hu
                  exact absurd hu (by simp)
                · rw [updPC_other _ _ _ _ h1] at hu
                  exact h1 (huniq u w hu hhold)
              constructor
              · intro u u' hu _
                dsimp only at hu
                exact absurd hu (fun hc' => hpc u hc')
              · intro _ u hu
                dsimp only at hu
                exact hpc u hu
  | claim w =>
      cases w with
      | co i =>
          simp only [muStep] at hs
          exact absurd hs (by simp)
      | thr i =>
          simp only [muStep] at hs
          split_ifs at hs with hc
          · obtain ⟨hq, hlock⟩ := hc
            injection hs with hs
            subst hs
            constructor
            · intro u u' hu hu'
              dsimp only at hu hu'
              by_cases h1 : u = Wtr.thr i
              · by_cases h2 : u' = Wtr.thr i
                · rw [h1, h2]
                · rw [updPC_other _ _ _ _ h2] at hu'
                  exact absurd hu' (hfree (Or.inr hlock) u')
              · rw [updPC_other _ _ _ _ h1] at hu
                exact absurd hu (hfree (Or.inr hlock) u)
            · intro hlk
              dsimp only at hlk
              exact absurd hlk (by norm_num)


lemma muRun_inv {s s' : MuSt} {l : List MuStep} (h : MuInv s)
    (hs : muRun s l = some s') : MuInv s' := by
  induction l generalizing s with
  | nil =>
      simp only [muRun] at hs
      injection hs with hs
      subst hs
      exact h
  | cons a l ih =>
      simp only [muRun] at hs
      rcases ha : muStep s a with _ | s1
      · rw [ha] at hs
        exact absurd hs (by simp)
      · rw [ha] at hs
        exact ih (muStep_inv h ha) hs

lemma muWF_init : MuWF mutexInit := by
  constructor <;> intro x <;> simp [mutexInit]

lemma muWF_step {s s' : MuSt} {a : MuStep} (h : MuWF s)
    (hs : muStep s a = some s') : MuWF s' := by
  obtain ⟨hmem, hcnt⟩ := h
  cases a with
  | lockFast w =>
      simp only [muStep] at hs
      split_ifs at hs with hc
      obtain ⟨hidle, _⟩ := hc
      injection hs with hs
      subst hs
      refine ⟨?_, hcnt⟩
      intro x hx
      dsimp only at hx ⊢
      have hq := hmem x hx
      by_cases h1 : Wtr.co x = w
      · rw [← h1, hq] at hidle
        exact absurd hidle (by simp)
      · rwa [updPC_other _ _ _ _ h1]
  | tryLockOk w =>
      simp only [muStep] at hs
      split_ifs at hs with hc
      obtain ⟨hidle, _⟩ := hc
      injection hs with hs
      subst hs
      refine ⟨?_, hcnt⟩
      intro x hx
      dsimp only at hx ⊢
      have hq := hmem x hx
      by_cases h1 : Wtr.co x = w
      · rw [← h1, hq] at hidle
        exact absurd hidle (by simp)
      · rwa [updPC_other _ _ _ _ h1]
  | lockEnq w =>
      simp only [muStep] at hs
      split_ifs at hs with hc
      obtain ⟨hidle, _⟩ := hc
      injection hs with hs
      subst hs
      constructor
      · intro x hx
        dsimp only at hx ⊢
        rcases List.mem_append.mp hx with hx | hx
        · have hq := hmem x hx
          by_cases h1 : Wtr.co x = w
          · rw [← h1, hq] at hidle
            exact absurd hidle (by simp)
          · rwa [updPC_other _ _ _ _ h1]
        · have hx' : entryOf w = QEntry.co x := by
            rcases List.mem_singleton.mp hx with h
            exact h.symm
          cases w with
          | co j =>
              simp only [entryOf, QEntry.co.injEq] at hx'
              rw [← hx']
              exact updPC_self _ _ _
          | thr j => simp [entryOf] at hx'
      · intro x
        dsimp only
        rw [List.count_append]
        by_cases h1 : entryOf w = QEntry.co x
        · have hnm : QEntry.co x ∉ s.wq := by
            intro hm
            have hq := hmem x hm
            cases w with
            | co j =>
                simp only [entryOf, QEntry.co.injEq] at h1
                rw [h1] at hidle
                rw [hq] at hidle
                exact absurd hidle (by simp)
            | thr j => simp [entryOf] at h1
          rw [List.count_eq_zero.mpr hnm]
          simp [h1]
        · have : List.count (QEntry.co x) [entryOf w] = 0 := by
            simp [List.count_singleton]
            intro hcontra
            exact absurd hcontra h1
          rw [this]
          simpa using hcnt x
  | unlockEmpty w =>
      simp only [muStep] at hs
      split_ifs at hs with hc
      obtain ⟨hhold, hwq⟩ := hc
      injection hs with hs
      subst hs
      constructor
      · intro x hx
        dsimp only at hx
        rw [hwq] at hx
        exact absurd hx (List.not_mem_nil _)
      · intro x
        dsimp only
        rw [hwq]
        simp
  | unlockPop w =>
      simp only [muStep] at hs
      rcases hwq : s.wq with _ | ⟨e, rest⟩
      · rw [hwq] at hs
        exact absurd hs (by simp)
      · rw [hwq] at hs
        split_ifs at hs with hhold
        have hcnt' : ∀ x, rest.count (QEntry.co x) ≤ 1 := by
          intro x
          have := hcnt x
          rw [hwq, List.count_cons] at this
          omega
        have hmem' : ∀ x, QEntry.co x ∈ rest → s.pc (Wtr.co x) = MuPC.queued := by
          intro x hx
          exact hmem x (by rw [hwq]; exact List.mem_cons_of_mem _ hx)
        cases e with
        | co j =>
            injection hs with hs
            subst hs
            constructor
            · intro x hx
              dsimp only at hx ⊢
              have hq := hmem' x hx
              have hxj : Wtr.co x ≠ Wtr.co j := by
                intro hcontra
                have hj : QEntry.co j ∈ rest := by
                  simp only [Wtr.co.injEq] at hcontra
                  rwa [hcontra] at hx
                have := hcnt j
                rw [hwq, List.count_cons] at this
                have hpos : 0 < rest.count (QEntry.co j) :=
                  List.count_pos_iff.mpr hj
                simp at this
                omega
              rw [updPC_other _ _ _ _ hxj]
              by_cases h3 : Wtr.co x = w
              · rw [← h3, hq] at hhold
                exact absurd hhold (by simp)
              · rwa [updPC_other _ _ _ _ h3]
            · intro x
              dsimp only
              exact hcnt' x
        | null =>
            injection hs with hs
            subst hs
            constructor
            · intro x hx
              dsimp only at hx ⊢
              have hq := hmem' x hx
              by_cases h3 : Wtr.co x = w
              · rw [← h3, hq] at hhold
                exact absurd hhold (by simp)
              · rwa [updPC_other _ _ _ _ h3]
            · intro x
              dsimp only
              exact hcnt' x
  | claim w =>
      cases w with
      | co i =>
          simp only [muStep] at hs
          exact absurd hs (by simp)
      | thr i =>
          simp only [muStep] at hs
          split_ifs at hs with hc
          injection hs with hs
          subst hs
          refine ⟨?_, hcnt⟩
          intro x hx
          dsimp only at hx ⊢
          have hq := hmem x hx
          have h1 : Wtr.co x ≠ Wtr.thr i := by simp
          rwa [updPC_other _ _ _ _ h1]

lemma muWF_run {s s' : MuSt} {l : List MuStep} (h : MuWF s)
    (hs : muRun s l = some s') : MuWF s' := by
  induction l generalizing s with
  | nil =>
      simp only [muRun] at hs
      injection hs with hs
      subst hs
      exact h
  | cons a l ih =>
      simp only [muRun] at hs
      rcases ha : muStep s a with _ | s1
      · rw [ha] at hs
        exact absurd hs (by simp)
      · rw [ha] at hs
        exact ih (muWF_step h ha) hs

lemma before_mem_A {s : MuSt} {A B : Nat} (h : Before s A B) :
    QEntry.co A ∈ s.wq := by
  obtain ⟨l1, l2, l3, hw⟩ := h
  rw [hw]
  simp

lemma before_mem_B {s : MuSt} {A B : Nat} (h : Before s A B) :
    QEntry.co B ∈ s.wq := by
  obtain ⟨l1, l2, l3, hw⟩ := h
  rw [hw]
  simp

lemma before_ne {s : MuSt} {A B : Nat} (hwf : MuWF s) (h : Before s A B) :
    A ≠ B := by
  obtain ⟨l1, l2, l3, hw⟩ := h
  intro hab
  subst hab
  have := hwf.2 A
  rw [hw] at this
  simp [List.count_append, List.count_cons] at this
  omega

lemma fifo_step {s s' : MuSt} {a : MuStep} {A B : Nat}
    (hwf : MuWF s) (hb : Before s A B) (hs : muStep s a = some s') :
    Before s' A B ∨
    (s'.pc (Wtr.co A) = MuPC.holding ∧ s'.pc (Wtr.co B) ≠ MuPC.holding) := by
  obtain ⟨l1, l2, l3, hw⟩ := hb
  have hAB : A ≠ B := before_ne hwf ⟨l1, l2, l3, hw⟩
  cases a with
  | lockFast w =>
      simp only [muStep] at hs
      split_ifs at hs with hc
      injection hs with hs
      subst hs
      exact Or.inl ⟨l1, l2, l3, hw⟩
  | tryLockOk w =>
      simp only [muStep] at hs
      split_ifs at hs with hc
      injection hs with hs
      subst hs
      exact Or.inl ⟨l1, l2, l3, hw⟩
  | lockEnq w =>
      simp only [muStep] at hs
      split_ifs at hs with hc
      injection hs with hs
      subst hs
      refine Or.inl ⟨l1, l2, l3 ++ [entryOf w], ?_⟩
      dsimp only
      rw [hw]
      simp [List.append_assoc]
  | unlockEmpty w =>
      simp only [muStep] at hs
      split_ifs at hs with hc
      obtain ⟨_, hwq⟩ := hc
      rw [hw] at hwq
      exact absurd hwq (by simp)
  | unlockPop w =>
      simp only [muStep] at hs
      rcases hwq : s.wq with _ | ⟨e, rest⟩
      · rw [hwq] at hs
        exact absurd hs (by simp)
      · rw [hwq] at hs
        split_ifs at hs with hhold
        have hrest : e :: rest = l1 ++ QEntry.co A :: (l2 ++ QEntry.co B :: l3) := by
          rw [← hwq, hw]
        cases l1 with
        | nil =>
            simp only [List.nil_append, List.cons.injEq] at hrest
            obtain ⟨he, hrest'⟩ := hrest
            subst he
            injection hs with hs
            subst hs
            refine Or.inr ⟨?_, ?_⟩
            · dsimp only
              exact updPC_self _ _ _
            · dsimp only
              have h1 : Wtr.co B ≠ Wtr.co A := by simp [Ne.symm hAB]
              rw [updPC_other _ _ _ _ h1]
              have h2 : Wtr.co B ≠ w := by
                intro hcontra
                have : s.pc (Wtr.co B) = MuPC.queued := by
                  apply hwf.1
                  rw [hw]
                  simp
                rw [hcontra, hhold] at this
                exact absurd this (by simp)
              rw [updPC_other _ _ _ _ h2]
              have : s.pc (Wtr.co B) = MuPC.queued := by
                apply hwf.1
                rw [hw]
                simp
              rw [this]
              simp
        | cons f l1' =>
            simp only [List.cons_append, List.cons.injEq] at hrest
            obtain ⟨he, hrest'⟩ := hrest
            cases e with
            | co j =>
                injection hs with hs
                subst hs
                exact Or.inl ⟨l1', l2, l3, hrest'⟩
            | null =>
                injection hs with hs
                subst hs
                exact Or.inl ⟨l1', l2, l3, hrest'⟩
  | claim w =>
      cases w with
      | co i =>
          simp only [muStep] at hs
          exact absurd hs (by simp)
      | thr i =>
          simp only [muStep] at hs
          split_ifs at hs with hc
          injection hs with hs
          subst hs
          exact Or.inl ⟨l1, l2, l3, hw⟩

lemma fifoOk_of_before {A B : Nat} :
    ∀ (l : List MuStep) (s : MuSt), MuWF s → Before s A B →
      fifoOk (Wtr.co A) (Wtr.co B) s l = true := by
  intro l
  induction l with
  | nil =>
      intro s _ _
      rfl
  | cons a l ih =>
      intro s hwf hb
      have hpcA : s.pc (Wtr.co A) = MuPC.queued := hwf.1 A (before_mem_A hb)
      rcases ha : muStep s a with _ | s'
      · simp [fifoOk, ha]
      · have hwf' := muWF_step hwf ha
        rcases fifo_step hwf hb ha with hb' | ⟨hA, hB⟩
        · have hB' : s'.pc (Wtr.co B) = MuPC.queued := hwf'.1 B (before_mem_B hb')
          have hA' : s'.pc (Wtr.co A) = MuPC.queued := hwf'.1 A (before_mem_A hb')
          simp only [fifoOk, ha]
          split_ifs with h1 h2
          · rw [hB'] at h1
            exact absurd h1.2 (by simp)
          · rfl
          · exact ih s' hwf' hb'
        · simp only [fifoOk, ha]
          split_ifs with h1 h2
          · exact absurd h1.2 hB
          · rfl
          · refine absurd ⟨?_, hA⟩ h2
            rw [hpcA]
            simp

lemma memOrAcq {A : Nat} :
    ∀ (l : List MuStep) (s s'' : MuSt), MuWF s → QEntry.co A ∈ s.wq →
      muRun s l = some s'' →
      QEntry.co A ∈ s''.wq ∨ acqIn (Wtr.co A) s l = true := by
  intro l
  induction l with
  | nil =>
      intro s s'' _ hm hs
      simp only [muRun] at hs
      injection hs with hs
      subst hs
      exact Or.inl hm
  | cons a l ih =>
      intro s s'' hwf hm hs
      simp only [muRun] at hs
      rcases ha : muStep s a with _ | s1
      · rw [ha] at hs
        exact absurd hs (by simp)
      · rw [ha] at hs
        have hwf1 := muWF_step hwf ha
        have hpcA : s.pc (Wtr.co A) = MuPC.queued := hwf.1 A hm
        have key : QEntry.co A ∈ s1.wq ∨
            (s.pc (Wtr.co A) ≠ MuPC.holding ∧ s1.pc (Wtr.co A) = MuPC.holding) := by
          cases a with
          | lockFast w =>
              simp only [muStep] at ha
              split_ifs at ha with hc
              injection ha with ha
              subst ha
              exact Or.inl hm
          | tryLockOk w =>
              simp only [muStep] at ha
              split_ifs at ha with hc
              injection ha with ha
              subst ha
              exact Or.inl hm
          | lockEnq w =>
              simp only [muStep] at ha
              split_ifs at ha with hc
              injection ha with ha
              subst ha
              exact Or.inl (by dsimp only; exact List.mem_append_left _ hm)
          | unlockEmpty w =>
              simp only [muStep] at ha
              split_ifs at ha with hc
              obtain ⟨_, hwq⟩ := hc
              rw [hwq] at hm
              exact absurd hm (List.not_mem_nil _)
          | unlockPop w =>
              simp only [muStep] at ha
              rcases hwq : s.wq with _ | ⟨e, rest⟩
              · rw [hwq] at ha
                exact absurd ha (by simp)
              · rw [hwq] at ha
                split_ifs at ha with hhold
                by_cases hr : QEntry.co A ∈ rest
                · cases e with
                  | co j =>
                      injection ha with ha
                      subst ha
                      exact Or.inl hr
                  | null =>
                      injection ha with ha
                      subst ha
                      exact Or.inl hr
                · have he : e = QEntry.co A := by
                    rw [hwq] at hm
                    rcases List.mem_cons.mp hm with h | h
                    · exact h.symm
                    · exact absurd h hr
                  subst he
                  injection ha with ha
                  subst ha
                  refine Or.inr ⟨by rw [hpcA]; simp, ?_⟩
                  dsimp only
                  exact updPC_self _ _ _
          | claim w =>
              cases w with
              | co i =>
                  simp only [muStep] at ha
                  exact absurd ha (by simp)
              | thr i =>
                  simp only [muStep] at ha
                  split_ifs at ha with hc
                  injection ha with ha
                  subst ha
                  exact Or.inl hm
        rcases key with hmem1 | hacq
        · rcases ih s1 s'' hwf1 hmem1 hs with h | h
          · exact Or.inl h
          · right
            simp only [acqIn, ha, h]
            simp
        · right
          simp only [acqIn, ha]
          rw [decide_eq_true hacq.1, decide_eq_true hacq.2]
          simp

lemma muRun_append (s : MuSt) (l1 l2 : List MuStep) :
    muRun s (l1 ++ l2) = (muRun s l1).bind (fun s' => muRun s' l2) := by
  induction l1 generalizing s with
  | nil => rfl
  | cons a l ih =>
      simp only [List.cons_append, muRun]
      rcases muStep s a with _ | s1
      · rfl
      · exact ih s1

lemma acqIn_append {w : Wtr} :
    ∀ (l l' : List MuStep) (s : MuSt),
      acqIn w s l = true → acqIn w s (l ++ l') = true := by
  intro l
  induction l with
  | nil =>
      intro l' s h
      simp [acqIn] at h
  | cons a t ih =>
      intro l' s h
      simp only [acqIn] at h
      simp only [List.cons_append, acqIn]
      rcases ha : muStep s a with _ | s1
      · rw [ha] at h
        simp at h
      · rw [ha] at h
        have h2 : (s.pc w ≠ MuPC.holding ∧ s1.pc w = MuPC.holding) ∨
            acqIn w s1 t = true := by
          simpa using h
        rcases h2 with ⟨hna, hh⟩ | h1
        · simp [hna, hh]
        · simp [ih l' s1 h1]

lemma muStep_of_snoc {s s' : MuSt} {l : List MuStep} {a : MuStep}
    (h : muRun s (l ++ [a]) = some s') :
    ∃ sm, muRun s l = some sm ∧ muStep sm a = some s' := by
  rw [muRun_append] at h
  rcases h0 : muRun s l with _ | sm
  · rw [h0] at h
    exact absurd h (by simp)
  · rw [h0] at h
    have h' : muRun sm [a] = some s' := h
    rcases he : muStep sm a with _ | sx
    · have hnone : muRun sm [a] = none := by
        simp only [muRun, he]
      rw [hnone] at h'
      exact absurd h' (by simp)
    · have hsome : muRun sm [a] = some sx := by
        simp only [muRun, he]
      rw [hsome] at h'
      injection h' with h'
      exact ⟨sm, rfl, by rw [he, h']⟩

lemma lockEnq_wq {s s' : MuSt} {w : Wtr}
    (h : muStep s (MuStep.lockEnq w) = some s') :
    s'.wq = s.wq ++ [entryOf w] := by
  simp only [muStep] at h
  split_ifs at h with hc
  injection h with h
  subst h
  rfl

/-- C1 (amended): mutual exclusion holds — in every state reachable from
the initial mutex state, at most one waiter is holding the lock.  The FIFO
half holds for *coroutine* waiters: if coroutine A enqueues before
coroutine B, then either A acquires the lock before B even enqueues, or —
from B's enqueue on — B never acquires before A.  (For thread waiters the
entry pushed on `_wq` is an anonymous `nullptr` and the handoff
`_lock = 2; _cv.notify_one()` can be consumed by any thread blocked in the
wait loop, so enqueue order does not determine acquisition order between
threads; see the counterexample.) -/
theorem mutex_excl_fifo :
    (∀ (tr : List MuStep) (s : MuSt), muRun mutexInit tr = some s →
      ∀ w w', s.pc w = MuPC.holding → s.pc w' = MuPC.holding → w = w') ∧
    (∀ (tr1 tr2 tr3 : List MuStep) (A B : Nat) (s1 s2 : MuSt),
      muRun mutexInit (tr1 ++ [MuStep.lockEnq (Wtr.co A)]) = some s1 →
      muRun s1 (tr2 ++ [MuStep.lockEnq (Wtr.co B)]) = some s2 →
      acqIn (Wtr.co A) s1 tr2 = true ∨
        fifoOk (Wtr.co A) (Wtr.co B) s2 tr3 = true) := by
  constructor
  · intro tr s hs
    exact (muRun_inv muInv_init hs).1
  · intro tr1 tr2 tr3 A B s1 s2 h1 h2
    obtain ⟨s0, h01, hstep1⟩ := muStep_of_snoc h1
    have hwf1 : MuWF s1 := muWF_run muWF_init h1
    have hA1 : QEntry.co A ∈ s1.wq := by
      rw [lockEnq_wq hstep1]
      simp [entryOf]
    obtain ⟨sm, hm2, hstep2⟩ := muStep_of_snoc h2
    rcases memOrAcq tr2 s1 sm hwf1 hA1 hm2 with hmemA | hacq
    · have hwfm : MuWF sm := muWF_run hwf1 hm2
      have hwf2 : MuWF s2 := muWF_step hwfm hstep2
      obtain ⟨u, v, huv⟩ := List.append_of_mem hmemA
      have hb2 : Before s2 A B := by
        refine ⟨u, v, [], ?_⟩
        rw [lockEnq_wq hstep2, huv]
        simp [entryOf, List.append_assoc]
      exact Or.inr (fifoOk_of_before tr3 s2 hwf2 hb2)
    · exact Or.inl hacq

/-- C1, counterexample: strict FIFO fails for thread waiters.  Coroutine 0
holds the lock; thread 1 then thread 2 enqueue (both pushed as `nullptr`,
co.cc:151); unlock pops one null entry, sets `_lock = 2` and calls
`notify_one`; thread 2 wakes in the `_cv.wait` loop first, sees
`_lock == 2` and takes the lock (co.cc:152-158).  Thread 2 — enqueued
second — acquires the mutex while thread 1, enqueued first, has not. -/
theorem mutex_fifo_counterexample : ¬ mutexFifoClaim := by
  intro h
  have hc := h [MuStep.lockFast (Wtr.co 0)] []
    [MuStep.unlockPop (Wtr.co 0), MuStep.claim (Wtr.thr 2)]
    (Wtr.thr 1) (Wtr.thr 2) cexS1thr cexS2thr rfl rfl rfl
  rcases hc with hc | hc
  · exact absurd hc (by decide)
  · exact absurd hc (by decide)

/-- C1, witness for `mutex_excl_fifo`: coroutine 0 takes the free lock (and
is the unique holder); coroutines 1 and 2 enqueue in that order, and the
two unlock handoffs serve them strictly in FIFO order. -/
theorem mutex_excl_fifo_witness :
    Wtr.co 0 = Wtr.co 0 ∧
    (acqIn (Wtr.co 1) cexS1co [] = true ∨
      fifoOk (Wtr.co 1) (Wtr.co 2) cexS2co
        [MuStep.unlockPop (Wtr.co 0), MuStep.unlockPop (Wtr.co 1)] = true) :=
  ⟨mutex_excl_fifo.1 [MuStep.lockFast (Wtr.co 0)] _ rfl (Wtr.co 0) (Wtr.co 0) rfl rfl,
   mutex_excl_fifo.2 [MuStep.lockFast (Wtr.co 0)] []
     [MuStep.unlockPop (Wtr.co 0), MuStep.unlockPop (Wtr.co 1)] 1 2
     cexS1co cexS2co rfl rfl⟩

end Coost
